import Mathlib

/-!
Verification of the sgen word-generator core against its specification.

This file gives a shallow embedding, in Lean 4, of the parts of the
repository exercised by the claims: the pattern expander and line
categorizer of `core/parser.py`, the sound-change engine of
`core/sound_changes.py`, and the syllabifier of `core/syllabification.py`.

Conventions of the embedding:
* Python strings are `List Char`; `word[a:b]` is `py_slice`, `str.split(sep)`
  is `split_on_char` / `split_double_slash`, `str.strip()` is `py_strip`,
  `str.replace(old, new)` is `py_replace`.
* Python dicts of categories (`Dict[str, List[str]]`, every key a single
  character and every member a single character) are `Categories :=
  Char → Option (List Char)`; `k in categories` is `(cats k).isSome`.
* `print` diagnostics that a claim depends on are collected as explicit
  data (see `apply_replacement_rules`); `sys.exit(1)` becomes an
  `Except.error` result.
* Python `while` loops that advance an index become recursions on the
  remaining length; where the source could diverge (only on inputs that
  its callers never produce, as noted at each definition) a fuel argument
  bounds the recursion.
-/

/-- Python slice `s[a:b]` (for natural `a`, `b`). -/
def py_slice (s : List Char) (a b : Nat) : List Char :=
  (s.take b).drop a

/-- Python `str.strip()`: remove leading and trailing whitespace. -/
def py_strip (s : List Char) : List Char :=
  ((s.dropWhile Char.isWhitespace).reverse.dropWhile Char.isWhitespace).reverse

/-- Python `str.split(c)` for a single-character separator: splits on every
occurrence, keeping empty pieces (`"".split(c) == [""]`). -/
def split_on_char (c : Char) : List Char → List (List Char)
  | [] => [[]]
  | x :: rest =>
    if x = c then [] :: split_on_char c rest
    else
      match split_on_char c rest with
      | [] => [[x]]
      | h :: t => (x :: h) :: t

/-- Python `str.split("//")`: split on non-overlapping occurrences of the
two-character separator `//`, scanning left to right. -/
def split_double_slash : List Char → List (List Char)
  | '/' :: '/' :: rest => [] :: split_double_slash rest
  | c :: rest =>
    match split_double_slash rest with
    | [] => [[c]]
    | h :: t => (c :: h) :: t
  | [] => [[]]

/-- Python `"//" in s`. -/
def contains_double_slash : List Char → Bool
  | '/' :: '/' :: _ => true
  | _ :: rest => contains_double_slash rest
  | [] => false

/-- Recursion of `py_replace`.  Each step consumes at least one character
of `s` (for a nonempty `pat`), so `s.length + 1` units of the structural
`fuel` never run out; the empty-`pat` case recurses structurally as
well. -/
def py_replace_go (pat rep : List Char) : Nat → List Char → List Char
  | 0, _ => []
  | _ + 1, [] => if pat = [] then rep else []
  | fuel + 1, c :: rest =>
    if pat = [] then rep ++ c :: py_replace_go pat rep fuel rest
    else if pat.isPrefixOf (c :: rest) then
      rep ++ py_replace_go pat rep fuel ((c :: rest).drop pat.length)
    else c :: py_replace_go pat rep fuel rest

/-- Python `str.replace(pat, rep)`: replace all non-overlapping occurrences,
left to right.  For an empty `pat`, Python inserts `rep` at every position
(including both ends). -/
def py_replace (s pat rep : List Char) : List Char :=
  py_replace_go pat rep (s.length + 1) s

/-- Recursion of `dedup_first` with the seen set as an explicit list. -/
def dedup_first_go (seen : List (List Char)) : List (List Char) → List (List Char)
  | [] => []
  | x :: xs =>
    if seen.contains x then dedup_first_go seen xs
    else x :: dedup_first_go (x :: seen) xs

/-- Keep the first occurrence of each element, dropping later duplicates
(Python `seen`-set loop at the end of `expand_rule`). -/
def dedup_first (l : List (List Char)) : List (List Char) :=
  dedup_first_go [] l

/-- Category table: a category symbol maps to its (ordered, possibly
repeating) member characters; `none` means the symbol is not a category. -/
def Categories : Type := Char → Option (List Char)

/-- Recursion of `unique_members` with the seen set as an explicit list. -/
def unique_members_go (seen : List Char) : List Char → List Char
  | [] => []
  | c :: rest =>
    if seen.contains c then unique_members_go seen rest
    else c :: unique_members_go (c :: seen) rest

/-- Python `list(dict.fromkeys(l))`: deduplicate preserving first
occurrence order (the "unique members" of a category). -/
def unique_members (l : List Char) : List Char :=
  unique_members_go [] l

/-! ### Pattern expander (`core/parser.py`, `expand_rule`) -/

/-- Inner `while` loop of the group scan in `expand_rule`: starting just
after an opening parenthesis with the given `depth`, consume characters
(updating the depth) until the depth reaches zero; return how many
characters were consumed, or `none` if the string ends first. -/
def scan_group_end : List Char → Nat → Option Nat
  | [], _ => none
  | c :: rest, depth =>
    let d := if c = '(' then depth + 1 else if c = ')' then depth - 1 else depth
    if d = 0 then some 1 else (scan_group_end rest d).map (· + 1)

/-- Outer scan of `expand_rule`: find the balanced parenthetical groups of
the pattern, left to right, as `(start, end, content)` with `start` the
index of `(`, `end` one past the matching `)`, and `content` the text
between them.  An unmatched `(` is skipped (treated as a literal); scanning
resumes after a complete group.  `pos` is the absolute index of the head of
the remaining suffix.  Each step consumes at least one character of the
suffix (a complete group consumes `1 + k` with `k ≥ 1`), so
`length + 1` units of the structural `fuel` never run out. -/
def find_paren_groups_go : Nat → Nat → List Char → List (Nat × Nat × List Char)
  | 0, _, _ => []
  | _ + 1, _, [] => []
  | fuel + 1, pos, c :: rest =>
    if c = '(' then
      match scan_group_end rest 1 with
      | some k =>
        (pos, pos + 1 + k, rest.take (k - 1)) :: find_paren_groups_go fuel (pos + 1 + k) (rest.drop k)
      | none => find_paren_groups_go fuel (pos + 1) rest
    else find_paren_groups_go fuel (pos + 1) rest

/-- The group scan of `expand_rule`, started at absolute position 0. -/
def find_paren_groups (rule : List Char) : List (Nat × Nat × List Char) :=
  find_paren_groups_go (rule.length + 1) 0 rule

/-- Inner `for current_rule in expanded_rules` loop of `expand_rule` for
one parenthetical group.  The source re-reads and MUTATES `group_content`
inside this loop: `is_mandatory` is recomputed per accumulated string, and
a leading `!` is stripped off the shared variable, so the mandatory
treatment (alternatives only, no empty option) applies just to the first
accumulated string — for every later one the `!` is already gone and the
empty option is added.  `gc` is the current value of that mutated
variable; alternatives are split on commas and stripped; each option is
spliced into the accumulated string at `[start:end]`. -/
def expand_one_group_go (start e : Nat) : List Char → List (List Char) → List (List Char)
  | _, [] => []
  | gc, current :: rest =>
    let is_mandatory := gc.head? = some '!'
    let gc' := if is_mandatory then gc.tail else gc
    let alternatives := (split_on_char ',' gc').map py_strip
    let options := if is_mandatory then alternatives else [] :: alternatives
    (options.map (fun option => current.take start ++ option ++ current.drop e)) ++
      expand_one_group_go start e gc' rest

/-- Expansion step for one `(start, end, content)` group of `expand_rule`,
over all accumulated strings (with the source's in-loop mutation of the
group content modelled by `expand_one_group_go`). -/
def expand_one_group (acc : List (List Char)) (g : Nat × Nat × List Char) : List (List Char) :=
  expand_one_group_go g.1 g.2.1 g.2.2 acc

/-- Embedding of `expand_rule` (`core/parser.py`, lines 73-154): expand the
parenthetical optional/alternative groups of a pattern into the list of
concrete strings, processing groups right to left and deduplicating the
result while preserving first-seen order. -/
def expand_rule (rule : List Char) : List (List Char) :=
  let paren_groups := find_paren_groups rule
  if paren_groups = [] then [rule]
  else dedup_first (((paren_groups.reverse).foldl expand_one_group) [rule])

/-- Embedding of `expand_environment_rule` (`core/sound_changes.py`, lines
287-368): the source duplicates the algorithm of `expand_rule` verbatim for
environments, so the embedding reuses the same function. -/
def expand_environment_rule (environment : List Char) : List (List Char) :=
  expand_rule environment

/-! ### Environment matching (`core/sound_changes.py`) -/

/-- Python `s.index(c, i)` as an option: first index `≥ i` holding `c`. -/
def index_from (c : Char) (s : List Char) (i : Nat) : Option Nat :=
  match (s.drop i).findIdx? (· = c) with
  | some k => some (i + k)
  | none => none

/-- Loop of `match_context` (`core/sound_changes.py`, lines 498-525) from
index `i`.  On a `[` context character the source finds the closing `]`,
tests membership of the word character in the bracket content, splices the
whole bracket span out of the context but only one character out of the
word, and restarts `match_context` on the spliced strings (re-checking
their lengths and re-validating the already-matched prefix, which gives the
same answers).  `fuel` bounds the number of bracket splices; each splice
shortens the context by at least two characters, so `fuel = cp.length`
never runs out (Python needs no fuel because the splice recursion strictly
shrinks its arguments).  A context with `[` but no following `]` raises
`ValueError` in Python; the embedding returns `false` there.  One unit of
`fuel` is consumed per loop iteration; the iteration count is bounded
because the index advances until the zip (or the function) ends, and each
splice shortens the context by at least two characters, so
`(cp.length + 2) * (cp.length + 2)` units never run out (Python needs no
fuel: its splice recursion strictly shrinks its arguments). -/
def match_context_core (cats : Categories) : Nat → List Char → List Char → Nat → Bool
  | 0, _, _, _ => false
  | fuel + 1, wp, cp, i =>
    if h : i < min wp.length cp.length then
      have hw : i < wp.length := lt_of_lt_of_le h (Nat.min_le_left _ _)
      have hc : i < cp.length := lt_of_lt_of_le h (Nat.min_le_right _ _)
      let wc := wp.get ⟨i, hw⟩
      let cc := cp.get ⟨i, hc⟩
      if cc = '#' then match_context_core cats fuel wp cp (i + 1)
      else if cc = '_' then match_context_core cats fuel wp cp (i + 1)
      else if cc = '[' then
        match index_from ']' cp i with
        | none => false
        | some bracket_end =>
          let bracket_content := py_slice cp (i + 1) bracket_end
          if ¬ bracket_content.contains wc then false
          else
            let wp' := py_slice wp 0 i ++ wp.drop (i + 1)
            let cp' := py_slice cp 0 i ++ cp.drop (bracket_end + 1)
            if wp'.length ≠ cp'.length then false
            else match_context_core cats fuel wp' cp' 0
      else
        match cats cc with
        | some members => if members.contains wc then match_context_core cats fuel wp cp (i + 1) else false
        | none => if wc = cc then match_context_core cats fuel wp cp (i + 1) else false
    else true

/-- Embedding of `match_context` (`core/sound_changes.py`, lines 498-525):
match a word part against a context part of equal length, character by
character; a category symbol matches its members, `#` and `_` are skipped,
a bracket class is handled by the splice-and-recurse strategy of
`match_context_core`. -/
def match_context (cats : Categories) (word_part context_part : List Char) : Bool :=
  if word_part.length ≠ context_part.length then false
  else match_context_core cats ((context_part.length + 2) * (context_part.length + 2)) word_part context_part 0

/-- Embedding of `match_input_at_position` (`core/sound_changes.py`, lines
528-541): a word segment matches an input pattern of the same length when
each character matches its aligned pattern character (category membership
for category symbols, equality otherwise). -/
def match_input_at_position (cats : Categories) (word_segment input_pattern : List Char) : Bool :=
  if word_segment.length ≠ input_pattern.length then false
  else (word_segment.zip input_pattern).all (fun p =>
    match cats p.2 with
    | some members => members.contains p.1
    | none => p.1 = p.2)

/-- Embedding of `_match_single_environment` (`core/sound_changes.py`,
lines 387-433): split a concrete environment at its first `_`; the left
context must precede `position` (with `#` demanding position 0), the right
context must follow `position + 1` (with `#` demanding that `position + 1`
equal the word length). -/
def match_single_environment (cats : Categories) (word : List Char) (position : Nat) (environment : List Char) : Bool :=
  if environment = ['_'] then true
  else if ¬ environment.contains '_' then false
  else
    let underscore_pos := environment.findIdx (· = '_')
    let left_context := environment.take underscore_pos
    let right_context := environment.drop (underscore_pos + 1)
    let left_ok :=
      if left_context = [] then true
      else if left_context = ['#'] then position = 0
      else if position < left_context.length then false
      else match_context cats (py_slice word (position - left_context.length) position) left_context
    let right_ok :=
      if right_context = [] then true
      else if right_context = ['#'] then position + 1 = word.length
      else
        let right_start := position + 1
        let right_end := right_start + right_context.length
        if right_end > word.length then false
        else match_context cats (py_slice word right_start right_end) right_context
    left_ok && right_ok

/-- Embedding of `match_environment` (`core/sound_changes.py`, lines
371-384): `_` always matches; otherwise the environment is expanded and the
rule matches if any expanded concrete environment matches. -/
def match_environment (cats : Categories) (word : List Char) (position : Nat) (environment : List Char) : Bool :=
  if environment = ['_'] then true
  else (expand_environment_rule environment).any
    (fun expanded_env => match_single_environment cats word position expanded_env)

/-- Embedding of `_match_single_environment_for_segment`
(`core/sound_changes.py`, lines 452-495): like
`match_single_environment` but for a matched segment of length
`segment_length`; a right `#` requires `position + segment_length` to equal
the word length, and other right contexts are anchored after the segment. -/
def match_single_environment_for_segment (cats : Categories) (word : List Char) (position segment_length : Nat) (environment : List Char) : Bool :=
  if environment = ['_'] then true
  else if ¬ environment.contains '_' then false
  else
    let underscore_pos := environment.findIdx (· = '_')
    let left_context := environment.take underscore_pos
    let right_context := environment.drop (underscore_pos + 1)
    let left_ok :=
      if left_context = [] then true
      else if left_context = ['#'] then position = 0
      else if position < left_context.length then false
      else match_context cats (py_slice word (position - left_context.length) position) left_context
    let right_ok :=
      if right_context = [] then true
      else if right_context = ['#'] then position + segment_length = word.length
      else
        let right_start := position + segment_length
        let right_end := right_start + right_context.length
        if right_end > word.length then false
        else match_context cats (py_slice word right_start right_end) right_context
    left_ok && right_ok

/-- Embedding of `match_environment_for_segment` (`core/sound_changes.py`,
lines 436-449). -/
def match_environment_for_segment (cats : Categories) (word : List Char) (position segment_length : Nat) (environment : List Char) : Bool :=
  if environment = ['_'] then true
  else (expand_environment_rule environment).any
    (fun expanded_env => match_single_environment_for_segment cats word position segment_length expanded_env)

/-! ### Replacement output and rule application (`core/sound_changes.py`) -/

/-- Character-by-character output builder of `get_replacement_output`
(`core/sound_changes.py`, lines 573-593), used when input and output
patterns have equal length.  The three lists are the matched segment, the
output pattern and the input pattern, walked in lockstep (the Python loop
zips the first two and indexes the third, stopping when either zipped list
ends).  A `²` output character doubles the matched character; when both
aligned pattern characters are categories the matched character is mapped
by its position among the input category's unique members (categories of
unequal unique length give `None`, a matched character not among them falls
back to itself); otherwise the output character is emitted literally. -/
def build_output (cats : Categories) : List Char → List Char → List Char → Option (List Char)
  | mc :: ms, oc :: os, ip =>
    let rest := fun (emitted : List Char) => (build_output cats ms os ip.tail).map (emitted ++ ·)
    if oc = '²' then rest [mc, mc]
    else
      match cats oc, ip.head? with
      | some out_mem, some ic =>
        match cats ic with
        | some in_mem =>
          let in_chars := unique_members in_mem
          let out_chars := unique_members out_mem
          if in_chars.length ≠ out_chars.length then none
          else if in_chars.contains mc then
            match out_chars.get? (in_chars.findIdx (· = mc)) with
            | some c => rest [c]
            | none => none
          else rest [mc]
        | none => rest [oc]
      | _, _ => rest [oc]
  | _, _, _ => some []

/-- Embedding of `get_replacement_output` (`core/sound_changes.py`, lines
544-593).  An output pattern that is exactly `²` doubles the whole matched
segment.  When the pattern lengths differ the source first tests for the
single-category-to-single-category case (unreachable: two length-1 patterns
cannot have different lengths, the case is kept for fidelity) and otherwise
returns the output pattern verbatim.  Equal lengths delegate to
`build_output`.  Python indexes `matched_segment[0]` in the dead branch;
the embedding returns `none` for an empty segment there. -/
def get_replacement_output (cats : Categories) (matched_segment input_pattern output_pattern : List Char) : Option (List Char) :=
  if output_pattern = ['²'] then some (matched_segment ++ matched_segment)
  else if input_pattern.length ≠ output_pattern.length then
    match input_pattern, output_pattern with
    | [ic], [oc] =>
      match cats ic, cats oc with
      | some in_mem, some out_mem =>
        let in_chars := unique_members in_mem
        let out_chars := unique_members out_mem
        if in_chars.length ≠ out_chars.length then none
        else
          match matched_segment.head? with
          | some mc =>
            if in_chars.contains mc then
              (out_chars.get? (in_chars.findIdx (· = mc))).map (fun c => [c])
            else none
          | none => none
      | _, _ => some output_pattern
    | _, _ => some output_pattern
  else build_output cats matched_segment output_pattern input_pattern

/-- Embedding of `apply_insertion_rule` (`core/sound_changes.py`, lines
596-614): bound the word with `#` markers; at every position of the bounded
word emit the output when the environment matches there, then emit the
original character unless it is a boundary marker.  (The source's `²`
special case for insertion reassigns the output to itself, a no-op, and is
omitted.) -/
def apply_insertion_rule (cats : Categories) (word output_part environment : List Char) : List Char :=
  let bounded_word := '#' :: (word ++ ['#'])
  ((List.range bounded_word.length).map (fun i =>
    (if match_environment cats bounded_word i environment then output_part else []) ++
    (match bounded_word.get? i with
     | some c => if c ≠ '#' then [c] else []
     | none => []))).flatten

/-- Loop of `apply_deletion_rule` (`core/sound_changes.py`, lines 617-644)
from position `i`: when the input pattern matches the segment starting at
`i` and the environment holds for that segment (the source's nested `if`s
with a shared fallthrough, here one conjunction), skip the segment (advance
by its length, emit nothing); otherwise emit one character and advance by
one.  One unit of fuel is consumed per iteration; `word.length` units
suffice because every iteration advances `i` by at least one for the
nonempty input patterns the dispatcher passes here (Python would not
terminate on an everywhere-matching empty input, which the dispatcher
routes to insertion instead). -/
def deletion_loop (cats : Categories) (input_part environment word : List Char) : Nat → Nat → List Char
  | 0, _ => []
  | fuel + 1, i =>
    if h : i < word.length then
      if decide (i + input_part.length ≤ word.length) &&
          match_input_at_position cats (py_slice word i (i + input_part.length)) input_part &&
          (if environment = ['_'] then true
           else match_environment_for_segment cats word i input_part.length environment) then
        deletion_loop cats input_part environment word fuel (i + input_part.length)
      else word.get ⟨i, h⟩ :: deletion_loop cats input_part environment word fuel (i + 1)
    else []

/-- Embedding of `apply_deletion_rule` (`core/sound_changes.py`, lines
617-644). -/
def apply_deletion_rule (cats : Categories) (word input_part environment : List Char) : List Char :=
  deletion_loop cats input_part environment word word.length 0

/-- Loop of `apply_standard_replacement` (`core/sound_changes.py`, lines
647-679) from position `i`: on an input-pattern match whose environment
holds (single characters use `match_environment`, longer segments the
segment-aware check; the source's nested `if`s with a shared fallthrough
are one conjunction here) and whose replacement is not `None`, emit the
replacement and advance by the input length; in every other case emit one
character and advance by one.  Fuel as in `deletion_loop`. -/
def replacement_loop (cats : Categories) (input_part output_part environment word : List Char) : Nat → Nat → List Char
  | 0, _ => []
  | fuel + 1, i =>
    if h : i < word.length then
      if decide (i + input_part.length ≤ word.length) &&
          match_input_at_position cats (py_slice word i (i + input_part.length)) input_part &&
          (if environment = ['_'] then true
           else if input_part.length = 1 then match_environment cats word i environment
           else match_environment_for_segment cats word i input_part.length environment) then
        match get_replacement_output cats (py_slice word i (i + input_part.length)) input_part output_part with
        | some replacement =>
          replacement ++ replacement_loop cats input_part output_part environment word fuel (i + input_part.length)
        | none => word.get ⟨i, h⟩ :: replacement_loop cats input_part output_part environment word fuel (i + 1)
      else word.get ⟨i, h⟩ :: replacement_loop cats input_part output_part environment word fuel (i + 1)
    else []

/-- Embedding of `apply_standard_replacement` (`core/sound_changes.py`,
lines 647-679). -/
def apply_standard_replacement (cats : Categories) (word input_part output_part environment : List Char) : List Char :=
  replacement_loop cats input_part output_part environment word word.length 0

/-! ### Syllable and stress machinery (`core/sound_changes.py`) -/

/-- Embedding of `clean_word_for_processing` (`core/sound_changes.py`,
lines 12-16, duplicated in `core/syllabification.py`, lines 38-42): remove
syllable boundaries and stress marks via three chained `str.replace`
calls. -/
def clean_word_for_processing (word : List Char) : List Char :=
  py_replace (py_replace (py_replace word ['.'] []) ['ˈ'] []) ['ˌ'] []

/-- Embedding of `is_syllable_sensitive_rule` (`core/sound_changes.py`,
lines 52-55): a rule string is syllable-sensitive when it contains any of
`σ`, `ˈ`, `ˌ`, `˘`. -/
def is_syllable_sensitive_rule (rule_str : List Char) : Bool :=
  rule_str.contains 'σ' || rule_str.contains 'ˈ' || rule_str.contains 'ˌ' || rule_str.contains '˘'

/-- Python substring containment `pat in s` for strings. -/
def py_contains_sub (pat : List Char) : List Char → Bool
  | [] => pat.isPrefixOf []
  | c :: rest => pat.isPrefixOf (c :: rest) || py_contains_sub pat rest

/-- Stress classification used by the syllable engine (the Python code uses
the strings `'primary'`, `'secondary'`, `'unstressed'`). -/
inductive StressType where
  | primary
  | secondary
  | unstressed
deriving DecidableEq, Repr

/-- Embedding of `parse_syllable_in_rule` (`core/sound_changes.py`, lines
58-75): `(stress_type, is_syllable)` for a rule part, keyed on the
substrings `ˈσ`, `ˌσ`, `˘σ` and the bare `σ`. -/
def parse_syllable_in_rule (rule_part : List Char) : Option StressType × Bool :=
  if ¬ rule_part.contains 'σ' then (none, false)
  else if py_contains_sub ['ˈ', 'σ'] rule_part then (some .primary, true)
  else if py_contains_sub ['ˌ', 'σ'] rule_part then (some .secondary, true)
  else if py_contains_sub ['˘', 'σ'] rule_part then (some .unstressed, true)
  else (none, true)

/-- Embedding of `get_syllable_stress_type` (`core/sound_changes.py`, lines
78-85): classify a syllable by its leading mark. -/
def get_syllable_stress_type (syllable : List Char) : StressType :=
  if syllable.head? = some 'ˈ' then .primary
  else if syllable.head? = some 'ˌ' then .secondary
  else .unstressed

/-- Embedding of `split_syllabified_word` (`core/sound_changes.py`, lines
88-94). -/
def split_syllabified_word (word : List Char) : List (List Char) :=
  if ¬ word.contains '.' then [word]
  else split_on_char '.' word

/-- Embedding of `join_syllables` (`core/sound_changes.py`, lines 97-99). -/
def join_syllables (syllables : List (List Char)) : List Char :=
  List.intercalate ['.'] syllables

/-- Embedding of `remove_stress_from_syllables` (`core/sound_changes.py`,
lines 102-113); the source selects `ˈ` for `'primary'` and `ˌ` for any
other argument. -/
def remove_stress_from_syllables (syllables : List (List Char)) (stress_type : StressType) : List (List Char) :=
  let stress_char := if stress_type = .primary then 'ˈ' else 'ˌ'
  syllables.map (fun syllable =>
    if syllable.head? = some stress_char then syllable.tail else syllable)

/-- Sound-change rule as parsed by `parse_replacement_rule`. -/
structure SCRule where
  input : List Char
  output : List Char
  environment : List Char
  line_num : Nat
deriving DecidableEq, Repr

/-- Embedding of `apply_syllable_replacement` (`core/sound_changes.py`,
lines 116-195): syllable deletion (empty output) keyed on the input's
stress qualifier and the environment (`#_` first, `_#` last, `_` all), and
stress movement (unqualified `σ` input, qualified `σ` output) that first
strips the target stress type everywhere and then applies it to the first
(`#_`) or last (`_#`) syllable; everything else returns the word
unchanged.  The source maps an `unstressed` output qualifier to the `ˌ`
mark (its `'ˈ' if ... == 'primary' else 'ˌ'` choice). -/
def apply_syllable_replacement (word : List Char) (rule : SCRule) : List Char :=
  let input_part := rule.input
  let output_part := rule.output
  let environment := rule.environment
  let syllables := split_syllabified_word word
  let ipair := parse_syllable_in_rule input_part
  let opair := parse_syllable_in_rule output_part
  if ¬ ipair.2 then word
  else if output_part = [] then
    let n := syllables.length
    let kept := (syllables.enum.filter (fun p =>
      let i := p.1
      let syllable := p.2
      let should_delete : Bool :=
        match ipair.1 with
        | none =>
          if environment = ['#', '_'] then i == 0
          else if environment = ['_', '#'] then i == n - 1
          else if environment = ['_'] then true
          else false
        | some st => get_syllable_stress_type syllable == st
      !should_delete)).map (·.2)
    join_syllables kept
  else if opair.2 then
    match ipair.1, opair.1 with
    | none, some st =>
      let ns1 :=
        if st = .primary then remove_stress_from_syllables syllables .primary
        else if st = .secondary then remove_stress_from_syllables syllables .secondary
        else syllables
      let stress_char := if st = .primary then 'ˈ' else 'ˌ'
      let with_target :=
        if environment = ['#', '_'] then
          match ns1 with
          | [] => ns1
          | first :: t =>
            let first' := if first.head? = some 'ˈ' ∨ first.head? = some 'ˌ' then first.tail else first
            (stress_char :: first') :: t
        else if environment = ['_', '#'] then
          match ns1.getLast? with
          | none => ns1
          | some last =>
            let last' := if last.head? = some 'ˈ' ∨ last.head? = some 'ˌ' then last.tail else last
            ns1.dropLast ++ [stress_char :: last']
        else ns1
      join_syllables with_target
    | _, _ => word
  else word

/-- Embedding of `apply_stress_sensitive_character_replacement`
(`core/sound_changes.py`, lines 198-241): in each syllable whose stress
classification matches the stress symbol of the environment, detach the
leading stress mark, replace `input` by `output` (Python `str.replace`),
and reattach the mark. -/
def apply_stress_sensitive_character_replacement (word : List Char) (rule : SCRule) : List Char :=
  let input_part := rule.input
  let output_part := rule.output
  let environment := rule.environment
  let stress_context : Option StressType :=
    if environment.contains 'ˈ' then some .primary
    else if environment.contains 'ˌ' then some .secondary
    else if environment.contains '˘' then some .unstressed
    else none
  match stress_context with
  | none => word
  | some ctx =>
    let syllables := split_syllabified_word word
    join_syllables (syllables.map (fun syllable =>
      if get_syllable_stress_type syllable = ctx then
        let detached :=
          if syllable.head? = some 'ˈ' then (['ˈ'], syllable.tail)
          else if syllable.head? = some 'ˌ' then (['ˌ'], syllable.tail)
          else (([] : List Char), syllable)
        detached.1 ++ py_replace detached.2 input_part output_part
      else syllable))

/-! ### Rule parsing and the rule pipeline (`core/sound_changes.py`) -/

/-- Embedding of `parse_replacement_rule` (`core/sound_changes.py`, lines
243-285).  When the line contains `//` and splits on it into exactly two
parts whose second part starts with `/`, it is a deletion rule with the
remainder (or `_`) as environment; otherwise the line is split on `/`: two
parts give `input/output` with environment `_`, three parts give
`input/output/environment` (empty environment defaulting to `_`), anything
else is an invalid-rule warning modelled as `none`. -/
def parse_replacement_rule (rule_str : List Char) (line_num : Nat) : Option SCRule :=
  let ds_result : Option SCRule :=
    if contains_double_slash rule_str then
      match split_double_slash rule_str with
      | [input_part, rest] =>
        match rest with
        | '/' :: rest_tail =>
          some { input := input_part, output := [],
                 environment := if rest_tail = [] then ['_'] else rest_tail,
                 line_num := line_num }
        | _ => none
      | _ => none
    else none
  match ds_result with
  | some r => some r
  | none =>
    match split_on_char '/' rule_str with
    | [] => none
    | [_] => none
    | [input_part, output_part] =>
      some { input := input_part, output := output_part, environment := ['_'], line_num := line_num }
    | [input_part, output_part, environment] =>
      some { input := input_part, output := output_part,
             environment := if environment = [] then ['_'] else environment,
             line_num := line_num }
    | _ => none

/-- Embedding of `apply_replacement_rule` (`core/sound_changes.py`, lines
682-708): skip syllable-sensitive rules when syllabification mode is off;
in syllabification mode dispatch `σ` rules to the syllable engine and
stress-environment rules to the stress-sensitive engine; otherwise empty
input is insertion, empty output is deletion, and the rest is standard
replacement. -/
def apply_replacement_rule (word : List Char) (rule : SCRule) (cats : Categories) (syllabify_mode : Bool) : List Char :=
  if !syllabify_mode && is_syllable_sensitive_rule (rule.input ++ rule.output ++ rule.environment) then word
  else
    let input_part := rule.input
    let output_part := rule.output
    let environment := rule.environment
    if syllabify_mode && is_syllable_sensitive_rule (input_part ++ output_part ++ environment) &&
        (input_part.contains 'σ' || output_part.contains 'σ') then
      apply_syllable_replacement word rule
    else if syllabify_mode && is_syllable_sensitive_rule (input_part ++ output_part ++ environment) &&
        (environment.contains 'ˈ' || environment.contains 'ˌ' || environment.contains '˘') then
      apply_stress_sensitive_character_replacement word rule
    else if input_part = [] then apply_insertion_rule cats word output_part environment
    else if output_part = [] then apply_deletion_rule cats word input_part environment
    else apply_standard_replacement cats word input_part output_part environment

/-- Result of `apply_replacement_rules`: the processed words, the
per-word applied-rule lists when tracking is on (Python returns `None`
otherwise), and the category-length-mismatch warnings the source prints
(`(input, output, line)` per print, in print order). -/
structure RulesOutcome where
  processed_words : List (List Char)
  applied_rules_list : Option (List (List (List Char)))
  mismatch_warnings : List (List Char × List Char × Nat)
deriving DecidableEq, Repr

/-- Inner loop body of `apply_replacement_rules` (`core/sound_changes.py`,
lines 720-748) for one rule applied to the current word: parse the rule
(unparsable rules are skipped); when both input and output are single
existing category symbols whose unique-member counts differ, record the
warning and skip the rule; otherwise apply it, tracking it when it changed
the word and tracking is on. -/
def word_rule_step (cats : Categories) (track_rules syllabify_mode : Bool)
    (acc : List Char × List (List Char) × List (List Char × List Char × Nat))
    (r : List Char × Nat) : List Char × List (List Char) × List (List Char × List Char × Nat) :=
  let current_word := acc.1
  let applied_rules := acc.2.1
  let warns := acc.2.2
  let rule_str := r.1
  let line_num := r.2
  match parse_replacement_rule rule_str line_num with
  | none => (current_word, applied_rules, warns)
  | some parsed_rule =>
    let mismatch : Option (List Char × List Char × Nat) :=
      match parsed_rule.input, parsed_rule.output with
      | [ic], [oc] =>
        match cats ic, cats oc with
        | some in_mem, some out_mem =>
          if (unique_members in_mem).length ≠ (unique_members out_mem).length then
            some (parsed_rule.input, parsed_rule.output, line_num)
          else none
        | _, _ => none
      | _, _ => none
    match mismatch with
    | some w => (current_word, applied_rules, warns ++ [w])
    | none =>
      let old_word := current_word
      let new_word := apply_replacement_rule current_word parsed_rule cats syllabify_mode
      let applied' :=
        if track_rules && old_word ≠ new_word then applied_rules ++ [rule_str] else applied_rules
      (new_word, applied', warns)

/-- Embedding of `apply_replacement_rules` (`core/sound_changes.py`, lines
710-757): the outer loop runs over the words, the inner loop over the
rules, so each word undergoes the full rule pipeline (with optional
dictionary cleaning first) before the next word is touched. -/
def apply_replacement_rules (words : List (List Char)) (replacement_rules : List (List Char × Nat))
    (cats : Categories) (track_rules clean_dict_words syllabify_mode : Bool) : RulesOutcome :=
  let folded := words.foldl (fun acc word =>
    let current0 := if clean_dict_words then clean_word_for_processing word else word
    let stepped := replacement_rules.foldl (word_rule_step cats track_rules syllabify_mode)
      (current0, ([] : List (List Char)), ([] : List (List Char × List Char × Nat)))
    (acc.1 ++ [stepped.1], acc.2.1 ++ [stepped.2.1], acc.2.2 ++ stepped.2.2))
    (([] : List (List Char)), ([] : List (List (List Char))), ([] : List (List Char × List Char × Nat)))
  { processed_words := folded.1
    applied_rules_list := if track_rules then some folded.2.1 else none
    mismatch_warnings := folded.2.2 }

/-! ### Input-file parsing (`core/parser.py`) -/

/-- Recursion of `py_split_ws`; each step consumes at least one character,
so `length + 1` units of the structural `fuel` never run out. -/
def py_split_ws_go : Nat → List Char → List (List Char)
  | 0, _ => []
  | _ + 1, [] => []
  | fuel + 1, c :: rest =>
    if c.isWhitespace then py_split_ws_go fuel rest
    else (c :: rest.takeWhile (fun x => !x.isWhitespace)) ::
      py_split_ws_go fuel (rest.dropWhile (fun x => !x.isWhitespace))

/-- Python `str.split()` with no argument: split on whitespace runs,
dropping empty pieces. -/
def py_split_ws (s : List Char) : List (List Char) :=
  py_split_ws_go (s.length + 1) s

/-- Value of decimal digits. -/
def digits_to_nat (ds : List Char) : Nat :=
  ds.foldl (fun acc c => acc * 10 + (c.toNat - '0'.toNat)) 0

/-- Python `int(str)` as an option: optional surrounding whitespace,
optional sign, then at least one digit. -/
def py_int? (s : List Char) : Option Int :=
  let t := py_strip s
  match t with
  | '-' :: ds => if ds ≠ [] ∧ ds.all (·.isDigit) then some (-(digits_to_nat ds : Int)) else none
  | '+' :: ds => if ds ≠ [] ∧ ds.all (·.isDigit) then some ((digits_to_nat ds : Int)) else none
  | ds => if ds ≠ [] ∧ ds.all (·.isDigit) then some ((digits_to_nat ds : Int)) else none

/-- Embedding of `parse_weighted_category` (`core/parser.py`, lines 14-51):
split the category content on whitespace; a token containing both `{` and
`}` contributes the text before the first `{` with the weight between the
first `{` and the first `}` (an unparsable weight falls back to 1); any
other token contributes each of its characters at weight 1. -/
def parse_weighted_category (content : List Char) : List (List Char × Int) :=
  (py_split_ws content).flatMap (fun part =>
    if part.contains '{' && part.contains '}' then
      let brace_start := part.findIdx (· = '{')
      let brace_end := part.findIdx (· = '}')
      let ch := part.take brace_start
      let weight_str := py_slice part (brace_start + 1) brace_end
      match py_int? weight_str with
      | some w => [(ch, w)]
      | none => [(ch, 1)]
    else part.map (fun c => ([c], (1 : Int))))

/-- Embedding of `expand_weighted_category` (`core/parser.py`, lines
54-70): repeat each entry according to its weight (a non-positive weight
contributes nothing, as Python list repetition does). -/
def expand_weighted_category (weighted_items : List (List Char × Int)) : List (List Char) :=
  weighted_items.flatMap (fun p => List.replicate p.2.toNat p.1)

/-- Reserved characters (`validate_category_definition`,
`core/sound_changes.py`, line 21). -/
def reserved_chars : List Char := "ˈˌ˘σ![]()²-→/>#:{}".toList

/-- Fatal errors of the category-definition branch of `parse_input_file`
(each corresponds to a `print` + `sys.exit(1)` in the source). -/
inductive CatError where
  | reserved_name (c : Char)
  | reserved_content (c : Char)
  | invalid_weight (w : List Char)
  | unmatched_braces
deriving DecidableEq, Repr

/-- Embedding of `validate_category_definition` (`core/sound_changes.py`,
lines 19-34): reject a reserved category name, then the first reserved
character among the member characters. -/
def validate_category_definition (category_char : Char) (characters : List Char) : Option CatError :=
  if reserved_chars.contains category_char then some (.reserved_name category_char)
  else
    match characters.find? (fun c => reserved_chars.contains c) with
    | some c => some (.reserved_content c)
    | none => none

/-- Captures of Python `re.findall` for the pattern matching a brace pair
with its contents, scanning left to right without overlap: everything
between a `{` and the next `}`; a `{` with no following `}` ends the
scan. -/
def brace_findall_go : Nat → List Char → List (List Char)
  | 0, _ => []
  | _ + 1, [] => []
  | fuel + 1, '{' :: rest =>
    if rest.contains '}' then
      (rest.takeWhile (· ≠ '}')) ::
        brace_findall_go fuel (rest.drop ((rest.takeWhile (· ≠ '}')).length + 1))
    else []
  | fuel + 1, _ :: rest => brace_findall_go fuel rest

/-- Left-to-right scan for the brace captures; each step consumes at least
one character, so `length + 1` units of the structural `fuel` never run
out. -/
def brace_findall (s : List Char) : List (List Char) :=
  brace_findall_go (s.length + 1) s

/-- Embedding of the category-definition branch of `parse_input_file`
(`core/parser.py`, lines 309-358), given the already-split category name
and content: parse the weighted items, validate the base characters and
the name (`validate_category_definition`), reject any reserved character
in the raw content other than braces and digits, validate every brace
capture as numeric, reject unequal brace counts, and finally expand the
weighted items into the category's member list.  Each `print` +
`sys.exit(1)` of the source is an `Except.error`. -/
def reserved_loop_pred (c : Char) : Bool :=
  reserved_chars.contains c && !(c = '{' || c = '}') && !c.isDigit

/-- Brace-validation block of the category branch (`core/parser.py`, lines
336-354): when the content mentions a brace, every brace capture must be a
nonempty digit string (Python `str.isdigit`) and the brace counts must
match; the first failure is the fatal error, no failure is `none`. -/
def validate_braces (characters : List Char) : Option CatError :=
  if characters.contains '{' || characters.contains '}' then
    match (brace_findall characters).find? (fun m => !(!m.isEmpty && m.all (·.isDigit))) with
    | some m => some (.invalid_weight m)
    | none =>
      if characters.count '{' ≠ characters.count '}' then some .unmatched_braces
      else none
  else none

def process_category_line (category_char : Char) (characters : List Char) : Except CatError (List (List Char)) :=
  match validate_category_definition category_char
      ((parse_weighted_category characters).map (·.1)).flatten with
  | some e => .error e
  | none =>
    match characters.find? reserved_loop_pred with
    | some c => .error (.reserved_content c)
    | none =>
      match validate_braces characters with
      | some e => .error e
      | none => .ok (expand_weighted_category (parse_weighted_category characters))

/-- Line classification of `_categorize_line` (`core/parser.py`, lines
203-218). -/
inductive LineType where
  | category
  | replacement
  | structure_rule
  | unknown
deriving DecidableEq, Repr

/-- Embedding of `_categorize_line` (`core/parser.py`, lines 203-218): a
line with a colon and no rule separator is a category definition; a line
with a rule separator is a replacement rule; a line whose characters are
all letters or in `()!,` is a word-structure rule; anything else is
unknown.  (Python's `str.isalpha` accepts any Unicode letter; the
embedding uses ASCII letters, which agrees on the ASCII lines at issue.) -/
def categorize_line (line : List Char) : LineType :=
  if line.contains ':' && !(line.contains '/' || line.contains '>' || line.contains '→') then
    .category
  else if line.contains '/' || line.contains '>' || line.contains '→' then
    .replacement
  else if line.all (fun c => "ABCDEFGHIJKLMNOPQRSTUVWXYZ()!,".toList.contains c || c.isAlpha) then
    .structure_rule
  else .unknown

/-! ### Syllabification (`core/syllabification.py`) -/

/-- Stress pattern (`core/syllabification.py`, lines 23-35): a 1-indexed
primary stress position and an optional secondary one (Python ints). -/
structure StressPattern where
  primary : Int
  secondary : Option Int
deriving DecidableEq, Repr

/-- Syllabification rules (`core/syllabification.py`, lines 12-20). -/
structure SyllabificationRules where
  allowed_onsets : List (List Char)
  allowed_codas : List (List Char)
  stress_patterns : List StressPattern

/-- Stable insertion into a list sorted by descending length. -/
def insert_desc (x : List Char) : List (List Char) → List (List Char)
  | [] => [x]
  | y :: ys => if x.length < y.length then y :: insert_desc x ys else x :: y :: ys

/-- Python `sorted(l, key=len, reverse=True)`: the stable descending
length sort (stable insertion sort computes the same list). -/
def sorted_by_len_desc : List (List Char) → List (List Char)
  | [] => []
  | x :: xs => insert_desc x (sorted_by_len_desc xs)

/-- Break test of `find_syllable_boundaries` (`core/syllabification.py`,
lines 144-181) at position `i`: a coda from the allowed list ending the
left part makes the break valid (the onset scan is followed by the
source's fallback accepting any nonempty right part), and otherwise an
allowed onset starting the right part does. -/
def valid_break (sorted_onsets sorted_codas : List (List Char)) (word : List Char) (i : Nat) : Bool :=
  let left_part := word.take i
  let right_part := word.drop i
  let coda_valid := sorted_codas.any (fun coda =>
    coda.isSuffixOf left_part &&
      (sorted_onsets.any (fun onset => onset.isPrefixOf right_part) || !right_part.isEmpty))
  coda_valid || sorted_onsets.any (fun onset => onset.isPrefixOf right_part)

/-- Position loop of `find_syllable_boundaries`: scan positions from `i`
to the end of the word, keeping those where a break is valid (the source
increments the position by one in both branches, its "skip ahead" comment
notwithstanding). -/
def boundary_loop (sorted_onsets sorted_codas : List (List Char)) (word : List Char) : Nat → Nat → List Nat
  | 0, _ => []
  | fuel + 1, i =>
    if i < word.length then
      if valid_break sorted_onsets sorted_codas word i then
        i :: boundary_loop sorted_onsets sorted_codas word fuel (i + 1)
      else boundary_loop sorted_onsets sorted_codas word fuel (i + 1)
    else []

/-- Embedding of `find_syllable_boundaries` (`core/syllabification.py`,
lines 128-189): no boundaries for words of length at most one; otherwise
scan positions starting at 1 with the length-sorted onset and coda lists
(`word.length` units of structural fuel cover the scan from 1 to the
end). -/
def find_syllable_boundaries (word : List Char) (rules : SyllabificationRules) : List Nat :=
  if word.length ≤ 1 then []
  else
    boundary_loop (sorted_by_len_desc rules.allowed_onsets) (sorted_by_len_desc rules.allowed_codas)
      word word.length 1

/-- Boundary-insertion loop of `apply_syllabification`
(`core/syllabification.py`, lines 202-211): emit the slice from `last_pos`
to each boundary followed by a dot, then the rest of the word. -/
def insert_boundaries_go (word : List Char) : Nat → List Nat → List Char
  | last_pos, [] => word.drop last_pos
  | last_pos, b :: bs => py_slice word last_pos b ++ '.' :: insert_boundaries_go word b bs

/-- Embedding of `apply_syllabification` (`core/syllabification.py`, lines
192-213): a rule set with no onsets and no codas leaves the word alone;
otherwise insert a dot at every found boundary. -/
def apply_syllabification (word : List Char) (rules : SyllabificationRules) : List Char :=
  if rules.allowed_onsets = [] && rules.allowed_codas = [] then word
  else insert_boundaries_go word 0 (find_syllable_boundaries word rules)

/-- Replace the element at index `i` (out-of-range indices leave the list
unchanged; the source guards its indexing, so this case is never used). -/
def modify_at (l : List (List Char)) (i : Nat) (f : List Char → List Char) : List (List Char) :=
  match l, i with
  | [], _ => []
  | x :: xs, 0 => f x :: xs
  | x :: xs, n + 1 => x :: modify_at xs n f

/-- Embedding of `apply_stress_pattern` (`core/syllabification.py`, lines
216-258).  The source draws `random.choice(applicable_patterns)`; the
embedding takes the choice as the extra argument `choose` and picks element
`choose % length` of the applicable list, so that quantifying over `choose`
covers every outcome of the random draw.  Primary stress prepends `ˈ` to
the 1-indexed chosen syllable when the index is in range; secondary stress
prepends `ˌ` when in range and distinct from the primary index. -/
def apply_stress_pattern (syllabified_word : List Char) (rules : SyllabificationRules) (choose : Nat) : List Char :=
  if rules.stress_patterns = [] then syllabified_word
  else
    let syllables := split_on_char '.' syllabified_word
    let num_syllables := syllables.length
    if num_syllables < 1 then syllabified_word
    else
      let applicable := rules.stress_patterns.filter (fun pattern =>
        pattern.primary ≤ (num_syllables : Int) &&
          (match pattern.secondary with
           | none => true
           | some s => s ≤ (num_syllables : Int)))
      match applicable with
      | [] => syllabified_word
      | _ :: _ =>
        let chosen := applicable.getD (choose % applicable.length) ⟨1, none⟩
        let primary_idx : Int := chosen.primary - 1
        let stressed1 :=
          if 0 ≤ primary_idx ∧ primary_idx < (syllables.length : Int) then
            modify_at syllables primary_idx.toNat (fun s => 'ˈ' :: s)
          else syllables
        let stressed2 :=
          match chosen.secondary with
          | none => stressed1
          | some sec =>
            let secondary_idx : Int := sec - 1
            if 0 ≤ secondary_idx ∧ secondary_idx < (stressed1.length : Int) ∧ secondary_idx ≠ primary_idx then
              modify_at stressed1 secondary_idx.toNat (fun s => 'ˌ' :: s)
            else stressed1
        List.intercalate ['.'] stressed2

/-- Embedding of `syllabify_word` (`core/syllabification.py`, lines
261-269): syllable boundaries first, then a stress pattern (with the
random draw exposed as `choose`). -/
def syllabify_word (word : List Char) (rules : SyllabificationRules) (choose : Nat) : List Char :=
  apply_stress_pattern (apply_syllabification word rules) rules choose

/-! ### Concrete category tables used by the examples -/

/-- Categories `P=ptk`, `B=bdg` (spec §8, category-to-category example). -/
def cats_PB : Categories := fun c =>
  if c = 'P' then some ['p', 't', 'k']
  else if c = 'B' then some ['b', 'd', 'g']
  else none

/-- Categories `V=aeiou`, `C=bcdfg` (spec §8, deletion example). -/
def cats_VC : Categories := fun c =>
  if c = 'V' then some ['a', 'e', 'i', 'o', 'u']
  else if c = 'C' then some ['b', 'c', 'd', 'f', 'g']
  else none

/-- Categories `V=aeiou` (5 unique), `C=bc` (2 unique) (spec §8, length
mismatch example). -/
def cats_mismatch : Categories := fun c =>
  if c = 'V' then some ['a', 'e', 'i', 'o', 'u']
  else if c = 'C' then some ['b', 'c']
  else none

/-! ### Helper lemmas -/

theorem dedup_first_go_mem (a : List Char) :
    ∀ (l : List (List Char)) (seen : List (List Char)),
      a ∈ dedup_first_go seen l ↔ (a ∈ l ∧ a ∉ seen) := by
  intro l
  induction l with
  | nil => intro seen; simp [dedup_first_go]
  | cons x xs ih =>
    intro seen
    rw [dedup_first_go]
    by_cases hs : seen.contains x
    · rw [if_pos hs, ih]
      simp only [List.elem_iff] at hs
      simp only [List.mem_cons]
      constructor
      · rintro ⟨h1, h2⟩
        exact ⟨Or.inr h1, h2⟩
      · rintro ⟨h1 | h1, h2⟩
        · exact absurd (h1 ▸ hs) h2
        · exact ⟨h1, h2⟩
    · rw [if_neg hs]
      simp only [List.elem_iff] at hs
      simp only [List.mem_cons, ih, List.mem_cons]
      constructor
      · rintro (h | ⟨h1, h2⟩)
        · subst h
          exact ⟨Or.inl rfl, hs⟩
        · refine ⟨Or.inr h1, fun hm => h2 (Or.inr hm)⟩
      · rintro ⟨h1 | h1, h2⟩
        · exact Or.inl h1
        · by_cases hax : a = x
          · exact Or.inl hax
          · refine Or.inr ⟨h1, fun hm => ?_⟩
            rcases hm with h | h
            · exact hax h
            · exact h2 h

theorem dedup_first_go_nodup :
    ∀ (l : List (List Char)) (seen : List (List Char)), (dedup_first_go seen l).Nodup := by
  intro l
  induction l with
  | nil => intro seen; simp [dedup_first_go]
  | cons x xs ih =>
    intro seen
    rw [dedup_first_go]
    by_cases hs : seen.contains x
    · rw [if_pos hs]; exact ih seen
    · rw [if_neg hs]
      refine List.nodup_cons.mpr ⟨?_, ih (x :: seen)⟩
      intro hx
      have := (dedup_first_go_mem x xs (x :: seen)).mp hx
      simp at this

theorem dedup_first_nodup (l : List (List Char)) : (dedup_first l).Nodup :=
  dedup_first_go_nodup l []

/-! ### C8: word-structure lines with a weight suffix -/

/-- C8 (code_bug evidence): `_categorize_line` does not recognize a
word-structure rule carrying a trailing `{N}` weight suffix — the braces
and digits fail its letters-and-`()!,` test, so `CV{10}` is classified
`unknown` (and `parse_input_file` then warns and ignores the line, with no
weight validation and no weighted expansion anywhere), while the same rule
without the suffix is a structure rule. -/
theorem C8_categorize_weighted_structure_line :
    categorize_line ("CV{10}".toList) = LineType.unknown ∧
    categorize_line ("CV".toList) = LineType.structure_rule ∧
    categorize_line ("S(!F,L)VC".toList) = LineType.structure_rule := by
  refine ⟨?_, ?_, ?_⟩ <;> rfl

/-! ### C9: fatal category-definition weights -/

/-- C9 (counterexample): a zero weight `{0}` in a category definition is
not fatal — `process_category_line` accepts `a{0}` (the `"0".isdigit()`
check passes) and silently expands the member zero times, yielding an
empty category, contrary to the claim that `{0}` terminates the process. -/
theorem C9_counterexample_zero_weight :
    process_category_line 'V' ("a{0}".toList) = Except.ok [] := by rfl

/-- C9 (amended): a category definition whose brace counts differ (in
particular any bare `{` without its closing `}`) is fatal, and a
non-numeric weight such as `{abc}` is fatal; but a zero weight `{0}` is
accepted, expanding the member zero times, rather than being fatal. -/
theorem C9_category_brace_validation :
    (∀ (category_char : Char) (characters : List Char),
      characters.count '{' ≠ characters.count '}' →
      (process_category_line category_char characters).isOk = false) ∧
    process_category_line 'V' ("a\x7b3 e".toList) = Except.error (CatError.reserved_content '{') ∧
    process_category_line 'V' ("a{abc}".toList) = Except.error (CatError.invalid_weight ("abc".toList)) ∧
    process_category_line 'V' ("a{0}".toList) = Except.ok [] := by
  refine ⟨?_, by rfl, by rfl, by rfl⟩
  intro category_char characters hne
  have hbb : (characters.contains '{' || characters.contains '}') = true := by
    rcases Nat.lt_or_ge 0 (characters.count '{') with hpos | hzero
    · have h : '{' ∈ characters := List.count_pos_iff.mp hpos
      simp [List.elem_iff, h]
    · have hz : characters.count '{' = 0 := Nat.le_zero.mp hzero
      have hpos' : 0 < characters.count '}' := by omega
      have h : '}' ∈ characters := List.count_pos_iff.mp hpos'
      simp [List.elem_iff, h]
  have hvb : (validate_braces characters).isSome = true := by
    unfold validate_braces
    rw [if_pos hbb]
    cases (brace_findall characters).find? (fun m => !(!m.isEmpty && m.all (·.isDigit))) with
    | some m => rfl
    | none => rw [if_pos hne]; rfl
  unfold process_category_line
  cases validate_category_definition category_char
      ((parse_weighted_category characters).map (·.1)).flatten with
  | some e => rfl
  | none =>
    cases characters.find? reserved_loop_pred with
    | some c => rfl
    | none =>
      cases hv : validate_braces characters with
      | some e => rfl
      | none => rw [hv] at hvb; exact absurd hvb (by simp)

/-- C9 (witness): the amended statement applied at the concrete unmatched
input `a{3}x{`, whose brace counts are 2 and 1. -/
theorem C9_category_brace_validation_witness :
    (process_category_line 'V' ("a{3}x\x7b".toList)).isOk = false :=
  C9_category_brace_validation.1 'V' ("a{3}x\x7b".toList) (by decide)

/-! ### C4: pattern expander -/

/-- The source's in-loop reassignment of `group_content` (stripping the
leading `!`) means a mandatory group is mandatory only for the first
accumulated string: here the optional `(x)` group is expanded first
(groups are processed in reverse), leaving two accumulated strings, and
the mandatory `(!a,b)` group then contributes the empty option to the
second one, so the bare form `x` appears in the result. -/
theorem expand_rule_group_content_mutation :
    expand_rule ("(!a,b)(x)".toList) =
      ["a".toList, "b".toList, "x".toList, "ax".toList, "bx".toList] := by rfl

/-- C4: the pattern expander is a pure function returning a duplicate-free
list; a pattern with no parenthetical group expands to the singleton list
holding the pattern itself; and on the spec's examples it gives
`expand("CV") = ["CV"]`, `expand("CV(C)") = ["CV","CVC"]` (the empty-option
form first), and for a mandatory group `expand("S(!F,L)VC") =
["SFVC","SLVC"]` with no bare `SVC`. -/
theorem C4_expand_rule_spec :
    (∀ rule : List Char, (expand_rule rule).Nodup) ∧
    (∀ rule : List Char, find_paren_groups rule = [] → expand_rule rule = [rule]) ∧
    expand_rule ("CV".toList) = ["CV".toList] ∧
    expand_rule ("CV(C)".toList) = ["CV".toList, "CVC".toList] ∧
    expand_rule ("S(!F,L)VC".toList) = ["SFVC".toList, "SLVC".toList] := by
  refine ⟨?_, ?_, by rfl, by rfl, by rfl⟩
  · intro rule
    by_cases h : find_paren_groups rule = []
    · simp [expand_rule, h]
    · simp only [expand_rule, if_neg h]
      exact dedup_first_nodup _
  · intro rule h
    simp [expand_rule, h]

/-- C4 (witness): the no-group clause of the expander theorem applied to
the concrete pattern `CV`. -/
theorem C4_expand_rule_spec_witness :
    expand_rule ("CV".toList) = ["CV".toList] :=
  C4_expand_rule_spec.2.1 ("CV".toList) (by rfl)

/-! ### C7: syllable-sensitive rules with syllabification disabled -/

/-- C7: with syllabification mode disabled, a rule whose concatenated
input, output and environment contain any of `σ ˈ ˌ ˘` is skipped (the
word is returned unchanged), while a rule containing none of them is
dispatched normally (insertion for empty input, deletion for empty output,
standard replacement otherwise). -/
theorem C7_syllable_sensitive_skip (word : List Char) (rule : SCRule) (cats : Categories) :
    (is_syllable_sensitive_rule (rule.input ++ rule.output ++ rule.environment) = true →
      apply_replacement_rule word rule cats false = word) ∧
    (is_syllable_sensitive_rule (rule.input ++ rule.output ++ rule.environment) = false →
      apply_replacement_rule word rule cats false =
        (if rule.input = [] then apply_insertion_rule cats word rule.output rule.environment
         else if rule.output = [] then apply_deletion_rule cats word rule.input rule.environment
         else apply_standard_replacement cats word rule.input rule.output rule.environment)) := by
  constructor
  · intro h
    simp only [List.append_assoc] at h
    simp [apply_replacement_rule, h]
  · intro h
    simp only [List.append_assoc] at h
    simp [apply_replacement_rule, h]

/-- C7 (witness): the skip clause at the stress-marked rule `ˈσ//_` on
`tak`, and the normal clause at the plain rule `a/e/_` on `tak`. -/
theorem C7_syllable_sensitive_skip_witness :
    apply_replacement_rule ("tak".toList) ⟨['ˈ', 'σ'], [], ['_'], 4⟩ cats_VC false = "tak".toList ∧
    apply_replacement_rule ("tak".toList) ⟨['a'], ['e'], ['_'], 5⟩ cats_VC false =
      (if (['a'] : List Char) = [] then apply_insertion_rule cats_VC ("tak".toList) ['e'] ['_']
       else if (['e'] : List Char) = [] then apply_deletion_rule cats_VC ("tak".toList) ['a'] ['_']
       else apply_standard_replacement cats_VC ("tak".toList) ['a'] ['e'] ['_']) :=
  ⟨(C7_syllable_sensitive_skip ("tak".toList) ⟨['ˈ', 'σ'], [], ['_'], 4⟩ cats_VC).1 (by rfl),
   (C7_syllable_sensitive_skip ("tak".toList) ⟨['a'], ['e'], ['_'], 5⟩ cats_VC).2 (by rfl)⟩

/-! ### C5: ad-hoc bracket classes in environments -/

theorem match_context_bracket_false (cats : Categories) (wp : List Char) :
    match_context cats wp ("[pt]".toList) = false := by
  unfold match_context
  rcases wp with _ | ⟨a, _ | ⟨b, _ | ⟨c, _ | ⟨d, _ | ⟨e, t⟩⟩⟩⟩⟩ <;>
    simp [match_context_core, index_from, py_slice]

theorem match_environment_bracket_false (cats : Categories) (word : List Char) (i : Nat) :
    match_environment cats word i ("[pt]_".toList) = false := by
  unfold match_environment
  rw [if_neg (by decide)]
  rw [show expand_environment_rule ("[pt]_".toList) = [("[pt]_".toList)] from rfl]
  simp only [List.any_cons, List.any_nil, Bool.or_false]
  unfold match_single_environment
  rw [if_neg (by decide), if_neg (by decide)]
  simp only []
  rw [show (("[pt]_".toList).findIdx (· = '_')) = 4 from rfl]
  simp only [show ("[pt]_".toList).take 4 = "[pt]".toList from rfl,
    show ("[pt]_".toList).drop 5 = [] from rfl]
  by_cases h : i < ("[pt]".toList).length
  all_goals simp [h]
  all_goals exact fun _ => match_context_bracket_false cats _

theorem replacement_loop_bracket (cats : Categories) (word : List Char) :
    ∀ (fuel i : Nat), word.length ≤ fuel + i →
      replacement_loop cats ['a'] ['o'] ("[pt]_".toList) word fuel i = word.drop i := by
  intro fuel
  induction fuel with
  | zero =>
    intro i hi
    rw [replacement_loop, List.drop_eq_nil_of_le (by omega)]
  | succ fuel ih =>
    intro i hi
    rw [replacement_loop]
    by_cases h : i < word.length
    · rw [dif_pos h]
      have henv : match_environment cats word i ("[pt]_".toList) = false :=
        match_environment_bracket_false cats word i
      have hcond : (decide (i + (['a'] : List Char).length ≤ word.length) &&
          match_input_at_position cats (py_slice word i (i + (['a'] : List Char).length)) ['a'] &&
          (if ("[pt]_".toList : List Char) = ['_'] then true
           else if (['a'] : List Char).length = 1 then match_environment cats word i ("[pt]_".toList)
           else match_environment_for_segment cats word i (['a'] : List Char).length ("[pt]_".toList))) = false := by
        rw [if_neg (by decide), if_pos (by rfl), henv]
        simp
      rw [if_neg (by rw [hcond]; exact Bool.false_ne_true)]
      rw [List.drop_eq_getElem_cons h, ih (i + 1) (by omega)]
      rfl
    · rw [dif_neg h, List.drop_eq_nil_of_le (by omega)]

/-- C5 (code_bug evidence): an environment bracket class never matches.
The claim says rule `a/o/[pt]_` rewrites an `a` immediately preceded by
`p` or `t`, but in the code the left-context window for `[pt]` spans
`len("[pt]") = 4` word characters, and `match_context`'s splice removes
the whole bracket span from the context while removing only one character
from the word, so the recursive length check always fails: `match_context`
is constantly `false` on the context `[pt]`, the rule `a/o/[pt]_` leaves
every word of every category table unchanged, and in particular `pa`
(where the claim expects `po`) and `xxxpa` stay as they are. -/
theorem C5_bracket_class_environment :
    apply_standard_replacement cats_VC ("pa".toList) ['a'] ['o'] ("[pt]_".toList) = "pa".toList ∧
    apply_standard_replacement cats_VC ("xxxpa".toList) ['a'] ['o'] ("[pt]_".toList) = "xxxpa".toList ∧
    (∀ (cats : Categories) (word : List Char),
      apply_standard_replacement cats word ['a'] ['o'] ("[pt]_".toList) = word) ∧
    (∀ (cats : Categories) (word_part : List Char),
      match_context cats word_part ("[pt]".toList) = false) := by
  refine ⟨by rfl, by rfl, ?_, match_context_bracket_false⟩
  intro cats word
  unfold apply_standard_replacement
  rw [replacement_loop_bracket cats word word.length 0 (by omega)]
  exact List.drop_zero word

/-! ### C2: deletion rules and the final-# anchor -/

theorem py_slice_singleton (w : List Char) (i : Nat) (h : i < w.length) :
    py_slice w i (i + 1) = [w.get ⟨i, h⟩] := by
  unfold py_slice
  rw [List.take_succ]
  rw [List.drop_append_of_le_length (by rw [List.length_take]; omega)]
  rw [List.drop_eq_nil_of_le (by rw [List.length_take]; omega)]
  simp [List.getElem?_eq_getElem h]

theorem match_env_for_segment_final (cats : Categories) (word : List Char) (pos seg_len : Nat) :
    match_environment_for_segment cats word pos seg_len ("_#".toList) =
      decide (pos + seg_len = word.length) := by
  unfold match_environment_for_segment
  rw [if_neg (by decide)]
  rw [show expand_environment_rule ("_#".toList) = [("_#".toList)] from rfl]
  simp only [List.any_cons, List.any_nil, Bool.or_false]
  unfold match_single_environment_for_segment
  rw [if_neg (by decide), if_neg (by decide)]
  simp only [show (("_#".toList).findIdx (· = '_')) = 0 from rfl]
  simp only [show ("_#".toList).take 0 = ([] : List Char) from rfl,
    show ("_#".toList).drop 1 = ['#'] from rfl]
  simp

theorem deletion_loop_final_char (cats : Categories) (c : Char) (hc : cats c = none) (w : List Char) :
    ∀ (fuel i : Nat), w.length ≤ fuel + i →
      deletion_loop cats [c] ("_#".toList) w fuel i =
        (if w.getLast? = some c then w.dropLast else w).drop i := by
  intro fuel
  induction fuel with
  | zero =>
    intro i hi
    rw [deletion_loop]
    have : (if w.getLast? = some c then w.dropLast else w).length ≤ i := by
      split
      · rw [List.length_dropLast]; omega
      · omega
    rw [List.drop_eq_nil_of_le this]
  | succ fuel ih =>
    intro i hi
    rw [deletion_loop]
    by_cases h : i < w.length
    · rw [dif_pos h]
      simp only [List.length_singleton]
      have hmi : match_input_at_position cats (py_slice w i (i + 1)) [c] =
          decide (w.get ⟨i, h⟩ = c) := by
        rw [py_slice_singleton w i h]
        unfold match_input_at_position
        rw [if_neg (by simp)]
        simp [hc]
      have hseg := match_env_for_segment_final cats w i 1
      by_cases hlast : w.get ⟨i, h⟩ = c ∧ i + 1 = w.length
      · -- matched final character: the segment is skipped
        rw [if_pos ?hcnd]
        case hcnd =>
          rw [hmi]
          rw [if_neg (by decide), hseg]
          simp [hlast.2, h]
          exact hlast.1
        rw [ih (i + 1) (by omega)]
        have hg : w.getLast? = some c := by
          rw [List.getLast?_eq_getElem?]
          have hw1 : w.length - 1 = i := by omega
          rw [hw1, List.getElem?_eq_getElem h]
          exact congrArg some hlast.1
        rw [if_pos hg, List.drop_eq_nil_of_le (by rw [List.length_dropLast]; omega),
          List.drop_eq_nil_of_le (by rw [List.length_dropLast]; omega)]
      · -- no deletion at i: emit w[i]
        rw [if_neg ?hcnd]
        case hcnd =>
          rw [hmi]
          rw [if_neg (by decide), hseg]
          intro hcontra
          simp only [Bool.and_eq_true, decide_eq_true_eq] at hcontra
          exact hlast ⟨hcontra.1.2, hcontra.2⟩
        rw [ih (i + 1) (by omega)]
        by_cases hg : w.getLast? = some c
        · rw [if_pos hg] at *
          have hlt : i < w.dropLast.length := by
            rw [List.length_dropLast]
            rcases Nat.lt_or_ge (i + 1) w.length with h1 | h1
            · omega
            · exfalso
              have : i + 1 = w.length := by omega
              apply hlast
              refine ⟨?_, this⟩
              rw [List.getLast?_eq_getElem?] at hg
              have hw1 : w.length - 1 = i := by omega
              rw [hw1, List.getElem?_eq_getElem h] at hg
              exact Option.some.inj hg
          rw [List.drop_eq_getElem_cons hlt, List.getElem_dropLast]
          rfl
        · rw [if_neg hg] at *
          rw [List.drop_eq_getElem_cons h]
          rfl
    · rw [dif_neg h]
      have : (if w.getLast? = some c then w.dropLast else w).length ≤ i := by
        split
        · rw [List.length_dropLast]; omega
        · omega
      rw [List.drop_eq_nil_of_le this]

/-- C2: a deletion rule's right context `#` is checked as
`position + segment_length = word length` (computed from the segment's
length); deleting a single literal character with environment `_#` removes
the word's final character exactly when it equals that literal and leaves
every other occurrence alone; and the parsed rule `k//_#` applied through
`apply_replacement_rule` maps `tak` to `ta` and leaves `kat` unchanged. -/
theorem C2_deletion_rule :
    (∀ (cats : Categories) (word : List Char) (position segment_length : Nat),
      match_environment_for_segment cats word position segment_length ("_#".toList) =
        decide (position + segment_length = word.length)) ∧
    (∀ (cats : Categories) (c : Char), cats c = none → ∀ w : List Char,
      apply_deletion_rule cats w [c] ("_#".toList) =
        (if w.getLast? = some c then w.dropLast else w)) ∧
    parse_replacement_rule ("k//_#".toList) 3 = some ⟨['k'], [], "_#".toList, 3⟩ ∧
    apply_replacement_rule ("tak".toList) ⟨['k'], [], "_#".toList, 3⟩ cats_VC false = "ta".toList ∧
    apply_replacement_rule ("kat".toList) ⟨['k'], [], "_#".toList, 3⟩ cats_VC false = "kat".toList := by
  refine ⟨match_env_for_segment_final, ?_, by rfl, by rfl, by rfl⟩
  intro cats c hc w
  unfold apply_deletion_rule
  rw [deletion_loop_final_char cats c hc w w.length 0 (by omega)]
  exact List.drop_zero _

/-- C2 (witness): the general `_#` single-character deletion clause applied
to the literal `k` (not a category of `cats_VC`) and the word `tak`. -/
theorem C2_deletion_rule_witness :
    apply_deletion_rule cats_VC ("tak".toList) ['k'] ("_#".toList) =
      (if ("tak".toList).getLast? = some 'k' then ("tak".toList).dropLast else "tak".toList) :=
  C2_deletion_rule.2.1 cats_VC 'k' (by rfl) ("tak".toList)

/-! ### C1: category-to-category positional replacement -/

theorem unique_members_go_mem (a : Char) :
    ∀ (l : List Char) (seen : List Char),
      a ∈ unique_members_go seen l ↔ (a ∈ l ∧ a ∉ seen) := by
  intro l
  induction l with
  | nil => intro seen; simp [unique_members_go]
  | cons x xs ih =>
    intro seen
    rw [unique_members_go]
    by_cases hs : seen.contains x
    · rw [if_pos hs, ih]
      simp only [List.elem_iff] at hs
      simp only [List.mem_cons]
      constructor
      · rintro ⟨h1, h2⟩
        exact ⟨Or.inr h1, h2⟩
      · rintro ⟨h1 | h1, h2⟩
        · exact absurd (h1 ▸ hs) h2
        · exact ⟨h1, h2⟩
    · rw [if_neg hs]
      simp only [List.elem_iff] at hs
      simp only [List.mem_cons, ih, List.mem_cons]
      constructor
      · rintro (h | ⟨h1, h2⟩)
        · subst h
          exact ⟨Or.inl rfl, hs⟩
        · refine ⟨Or.inr h1, fun hm => h2 (Or.inr hm)⟩
      · rintro ⟨h1 | h1, h2⟩
        · exact Or.inl h1
        · by_cases hax : a = x
          · exact Or.inl hax
          · refine Or.inr ⟨h1, fun hm => ?_⟩
            rcases hm with h | h
            · exact hax h
            · exact h2 h

theorem unique_members_mem (a : Char) (l : List Char) :
    a ∈ unique_members l ↔ a ∈ l := by
  rw [unique_members, unique_members_go_mem]
  simp

theorem get_replacement_output_single_cat (cats : Categories) (ip op : Char)
    (in_mem out_mem : List Char)
    (hi : cats ip = some in_mem) (ho : cats op = some out_mem) (hop : op ≠ '²')
    (hlen : (unique_members in_mem).length = (unique_members out_mem).length) (mc : Char) :
    get_replacement_output cats [mc] [ip] [op] =
      (if (unique_members in_mem).contains mc then
        ((unique_members out_mem).get? ((unique_members in_mem).findIdx (· = mc))).map (fun y => [y])
      else some [mc]) := by
  unfold get_replacement_output
  rw [if_neg (by simp [hop])]
  rw [if_neg (by simp)]
  unfold build_output
  rw [if_neg (by simpa using hop)]
  simp only [List.head?_cons, hi, ho]
  rw [if_neg (by omega)]
  by_cases hmem : (unique_members in_mem).contains mc
  · rw [if_pos hmem, if_pos hmem]
    have hidx : (unique_members in_mem).findIdx (· = mc) < (unique_members out_mem).length := by
      rw [← hlen]
      apply List.findIdx_lt_length_of_exists
      exact ⟨mc, by simpa [List.elem_iff] using hmem, by simp⟩
    rw [List.get?_eq_getElem?, List.getElem?_eq_getElem hidx]
    rw [show build_output cats [] [] ([ip] : List Char).tail = some [] from rfl]
    simp
  · rw [if_neg hmem, if_neg hmem]
    rw [show build_output cats [] [] ([ip] : List Char).tail = some [] from rfl]
    simp

theorem replacement_loop_single_cat (cats : Categories) (ip op : Char)
    (in_mem out_mem : List Char)
    (hi : cats ip = some in_mem) (ho : cats op = some out_mem) (hop : op ≠ '²')
    (hlen : (unique_members in_mem).length = (unique_members out_mem).length) (word : List Char) :
    ∀ (fuel i : Nat), word.length ≤ fuel + i →
      replacement_loop cats [ip] [op] ['_'] word fuel i =
        (word.drop i).map (fun mc =>
          if in_mem.contains mc then
            ((unique_members out_mem).getD ((unique_members in_mem).findIdx (· = mc)) mc)
          else mc) := by
  intro fuel
  induction fuel with
  | zero =>
    intro i hi2
    rw [replacement_loop, List.drop_eq_nil_of_le (by omega)]
    rfl
  | succ fuel ih =>
    intro i hi2
    rw [replacement_loop]
    by_cases h : i < word.length
    · rw [dif_pos h]
      simp only [List.length_singleton]
      have hmi : match_input_at_position cats (py_slice word i (i + 1)) [ip] =
          in_mem.contains (word.get ⟨i, h⟩) := by
        rw [py_slice_singleton word i h]
        unfold match_input_at_position
        rw [if_neg (by simp)]
        simp [hi]
      rw [List.drop_eq_get_cons h, List.map_cons]
      by_cases hmem : in_mem.contains (word.get ⟨i, h⟩)
      · rw [if_pos ?hcnd]
        case hcnd =>
          rw [hmi, hmem]
          simp [Nat.succ_le_of_lt h]
        have humem : (unique_members in_mem).contains (word.get ⟨i, h⟩) := by
          simp only [List.elem_iff] at hmem ⊢
          exact (unique_members_mem _ _).mpr hmem
        rw [py_slice_singleton word i h]
        rw [get_replacement_output_single_cat cats ip op in_mem out_mem hi ho hop hlen]
        rw [if_pos humem]
        have hidx : (unique_members in_mem).findIdx (· = word.get ⟨i, h⟩) <
            (unique_members out_mem).length := by
          rw [← hlen]
          apply List.findIdx_lt_length_of_exists
          exact ⟨word.get ⟨i, h⟩, by simpa [List.elem_iff] using humem, by simp⟩
        rw [List.get?_eq_getElem?, List.getElem?_eq_getElem hidx]
        rw [ih (i + 1) (by omega)]
        show (unique_members out_mem).get ⟨_, hidx⟩ :: _ = _
        congr 1
        rw [if_pos hmem]
        rw [List.getD_eq_getElem _ _ hidx]
        rfl
      · rw [if_neg ?hcnd]
        case hcnd =>
          rw [hmi]
          simp [hmem]
          exact fun _ hmm => hmem (by simpa [List.elem_iff] using hmm)
        rw [ih (i + 1) (by omega)]
        congr 1
        rw [if_neg hmem]
    · rw [dif_neg h, List.drop_eq_nil_of_le (by omega)]
      rfl

/-- C1: for a rule whose input and output are single category symbols with
equal unique-member counts and environment `_`, `apply_standard_replacement`
maps every character of the word: a character belonging to the input
category is replaced by the output category's unique member at the same
index as the character's index in the input category's unique-member list,
every other character is kept; and `get_replacement_output` keeps a matched
character unchanged (`some [mc]`) when it is absent from the input
category's unique-member list.  In particular with `P=ptk`, `B=bdg` the
rule `P/B/_` sends `papa` to `baba`, both directly and through
`apply_replacement_rule`. -/
theorem C1_category_positional_replacement :
    (∀ (cats : Categories) (ip op : Char) (in_mem out_mem : List Char),
      cats ip = some in_mem → cats op = some out_mem → op ≠ '²' →
      (unique_members in_mem).length = (unique_members out_mem).length →
      (∀ word : List Char,
        apply_standard_replacement cats word [ip] [op] ['_'] =
          word.map (fun mc =>
            if in_mem.contains mc then
              (unique_members out_mem).getD ((unique_members in_mem).findIdx (· = mc)) mc
            else mc)) ∧
      (∀ mc : Char, mc ∉ unique_members in_mem →
        get_replacement_output cats [mc] [ip] [op] = some [mc])) ∧
    apply_standard_replacement cats_PB ("papa".toList) ['P'] ['B'] ['_'] = "baba".toList ∧
    apply_replacement_rule ("papa".toList) ⟨['P'], ['B'], ['_'], 7⟩ cats_PB false = "baba".toList := by
  refine ⟨?_, by rfl, by rfl⟩
  intro cats ip op in_mem out_mem hi ho hop hlen
  constructor
  · intro word
    unfold apply_standard_replacement
    rw [replacement_loop_single_cat cats ip op in_mem out_mem hi ho hop hlen word word.length 0 (by omega)]
    rw [List.drop_zero]
  · intro mc hmc
    rw [get_replacement_output_single_cat cats ip op in_mem out_mem hi ho hop hlen mc]
    rw [if_neg (by simpa [List.elem_iff] using hmc)]

/-- C1 (witness): the general clause applied to `P/B/_` over `cats_PB` and
the word `papa`. -/
theorem C1_category_positional_replacement_witness :
    apply_standard_replacement cats_PB ("papa".toList) ['P'] ['B'] ['_'] =
      ("papa".toList).map (fun mc =>
        if (['p', 't', 'k'] : List Char).contains mc then
          (unique_members ['b', 'd', 'g']).getD
            ((unique_members ['p', 't', 'k']).findIdx (· = mc)) mc
        else mc) :=
  (C1_category_positional_replacement.1 cats_PB 'P' 'B' ['p', 't', 'k'] ['b', 'd', 'g']
    (by rfl) (by rfl) (by decide) (by rfl)).1 ("papa".toList)

/-! ### C3: outer loop over words, inner loop over rules -/

theorem apply_rules_fold_processed (cats : Categories) (track_rules syllabify_mode clean_dict_words : Bool)
    (replacement_rules : List (List Char × Nat)) :
    ∀ (words : List (List Char))
      (acc : List (List Char) × List (List (List Char)) × List (List Char × List Char × Nat)),
      (words.foldl (fun acc word =>
        let current0 := if clean_dict_words then clean_word_for_processing word else word
        let stepped := replacement_rules.foldl (word_rule_step cats track_rules syllabify_mode)
          (current0, ([] : List (List Char)), ([] : List (List Char × List Char × Nat)))
        (acc.1 ++ [stepped.1], acc.2.1 ++ [stepped.2.1], acc.2.2 ++ stepped.2.2)) acc).1
      = acc.1 ++ words.map (fun word =>
          (replacement_rules.foldl (word_rule_step cats track_rules syllabify_mode)
            ((if clean_dict_words then clean_word_for_processing word else word),
              ([] : List (List Char)), ([] : List (List Char × List Char × Nat)))).1) := by
  intro words
  induction words with
  | nil => intro acc; simp
  | cons w ws ih =>
    intro acc
    rw [List.foldl_cons, ih, List.map_cons]
    simp

/-- C3: `apply_replacement_rules` loops over the words outside and over the
rules inside: its processed-word list is the map, over the input words in
order, of the full left-to-right fold of the rule list on that word alone
(after optional dictionary cleaning), so each word independently undergoes
the whole rule pipeline in source order.  In particular the rules
`[a/e/_, e/i/_]`, applied in that order to the single word `a`, yield `i`
(the second rule acts on the first rule's output). -/
theorem C3_outer_words_inner_rules :
    (∀ (words : List (List Char)) (rules : List (List Char × Nat)) (cats : Categories)
        (track_rules clean_dict_words syllabify_mode : Bool),
      (apply_replacement_rules words rules cats track_rules clean_dict_words syllabify_mode).processed_words =
        words.map (fun word =>
          (rules.foldl (word_rule_step cats track_rules syllabify_mode)
            ((if clean_dict_words then clean_word_for_processing word else word),
              ([] : List (List Char)), ([] : List (List Char × List Char × Nat)))).1)) ∧
    (apply_replacement_rules ["a".toList] [("a/e/_".toList, 1), ("e/i/_".toList, 2)]
        cats_VC false false false).processed_words = ["i".toList] := by
  refine ⟨?_, by rfl⟩
  intro words rules cats track_rules clean_dict_words syllabify_mode
  unfold apply_replacement_rules
  dsimp only
  rw [apply_rules_fold_processed cats track_rules syllabify_mode clean_dict_words rules words
    (([] : List (List Char)), ([] : List (List (List Char))), ([] : List (List Char × List Char × Nat)))]
  simp

/-! ### C6: category length mismatch handling -/

theorem word_rule_step_mismatch (cats : Categories) (rule_str : List Char) (line_num : Nat)
    (r : SCRule) (ic oc : Char) (in_mem out_mem : List Char)
    (hparse : parse_replacement_rule rule_str line_num = some r)
    (hic : r.input = [ic]) (hoc : r.output = [oc])
    (hci : cats ic = some in_mem) (hco : cats oc = some out_mem)
    (hne : (unique_members in_mem).length ≠ (unique_members out_mem).length)
    (w : List Char) :
    word_rule_step cats false false (w, [], []) (rule_str, line_num) =
      (w, [], [([ic], [oc], line_num)]) := by
  unfold word_rule_step
  simp only [hparse]
  rw [hic, hoc]
  simp only [hci, hco]
  rw [if_pos hne]
  simp [hic, hoc]

theorem fold_single_mismatch (cats : Categories) (rule_str : List Char) (line_num : Nat)
    (r : SCRule) (ic oc : Char) (in_mem out_mem : List Char)
    (hparse : parse_replacement_rule rule_str line_num = some r)
    (hic : r.input = [ic]) (hoc : r.output = [oc])
    (hci : cats ic = some in_mem) (hco : cats oc = some out_mem)
    (hne : (unique_members in_mem).length ≠ (unique_members out_mem).length) :
    ∀ (words : List (List Char))
      (acc : List (List Char) × List (List (List Char)) × List (List Char × List Char × Nat)),
      (words.foldl (fun acc word =>
        let current0 := if false then clean_word_for_processing word else word
        let stepped := [(rule_str, line_num)].foldl (word_rule_step cats false false)
          (current0, ([] : List (List Char)), ([] : List (List Char × List Char × Nat)))
        (acc.1 ++ [stepped.1], acc.2.1 ++ [stepped.2.1], acc.2.2 ++ stepped.2.2)) acc)
      = (acc.1 ++ words, acc.2.1 ++ words.map (fun _ => []),
         acc.2.2 ++ words.map (fun _ => ([ic], [oc], line_num))) := by
  intro words
  induction words with
  | nil => intro acc; simp
  | cons w ws ih =>
    intro acc
    rw [List.foldl_cons, ih]
    dsimp only [List.foldl_cons, List.foldl_nil]
    simp only [if_neg Bool.false_ne_true]
    rw [word_rule_step_mismatch cats rule_str line_num r ic oc in_mem out_mem
      hparse hic hoc hci hco hne w]
    simp

/-- C6 (amended): a rule whose input and output are single category symbols
with differing unique-member counts is skipped for every word — with no
tracking and no cleaning, `apply_replacement_rules` returns all words
unchanged — but the check runs (and its diagnostic is emitted) once per
word per rule inside the word loop, not once per invocation before any
word is processed: the warning list carries one entry per word. -/
theorem C6_mismatch_rule_skipped :
    (∀ (cats : Categories) (rule_str : List Char) (line_num : Nat)
        (r : SCRule) (ic oc : Char) (in_mem out_mem : List Char),
      parse_replacement_rule rule_str line_num = some r →
      r.input = [ic] → r.output = [oc] →
      cats ic = some in_mem → cats oc = some out_mem →
      (unique_members in_mem).length ≠ (unique_members out_mem).length →
      ∀ words : List (List Char),
        apply_replacement_rules words [(rule_str, line_num)] cats false false false =
          ⟨words, none, words.map (fun _ => ([ic], [oc], line_num))⟩) ∧
    (apply_replacement_rules ["ta".toList, "pa".toList] [("V/C/_".toList, 1)]
        cats_mismatch false false false).processed_words = ["ta".toList, "pa".toList] := by
  refine ⟨?_, by rfl⟩
  intro cats rule_str line_num r ic oc in_mem out_mem hparse hic hoc hci hco hne words
  unfold apply_replacement_rules
  dsimp only
  rw [fold_single_mismatch cats rule_str line_num r ic oc in_mem out_mem
    hparse hic hoc hci hco hne words (([] : List (List Char)), ([] : List (List (List Char))),
      ([] : List (List Char × List Char × Nat)))]
  simp

/-- C6 (witness): the amended statement applied to the rule `V/C/_` over
the mismatched table `V=aeiou`, `C=bc` and the words `ta`, `pa`. -/
theorem C6_mismatch_rule_skipped_witness :
    apply_replacement_rules ["ta".toList, "pa".toList] [("V/C/_".toList, 1)]
        cats_mismatch false false false =
      ⟨["ta".toList, "pa".toList], none,
       [(['V'], ['C'], 1), (['V'], ['C'], 1)]⟩ :=
  C6_mismatch_rule_skipped.1 cats_mismatch ("V/C/_".toList) 1
    ⟨['V'], ['C'], ['_'], 1⟩ 'V' 'C' ['a', 'e', 'i', 'o', 'u'] ['b', 'c']
    (by rfl) (by rfl) (by rfl) (by rfl) (by rfl) (by decide)
    ["ta".toList, "pa".toList]

/-- C6 (counterexample): the claim's "once per rule per invocation, before
any words are processed" is false — processing two words with one
mismatched rule surfaces the diagnostic twice (once per word), because the
check sits inside the word loop. -/
theorem C6_counterexample_per_word_check :
    (apply_replacement_rules ["ta".toList, "pa".toList] [("V/C/_".toList, 1)]
        cats_mismatch false false false).mismatch_warnings.length = 2 := by rfl

/-! ### C10: syllabification round trip -/

def mark_free (c : Char) : Bool := !(c = '.' || c = 'ˈ' || c = 'ˌ')

theorem py_replace_go_single_empty (c : Char) :
    ∀ (fuel : Nat) (s : List Char), s.length < fuel →
      py_replace_go [c] [] fuel s = s.filter (· ≠ c) := by
  intro fuel
  induction fuel with
  | zero => intro s hs; omega
  | succ fuel ih =>
    intro s hs
    cases s with
    | nil => rw [py_replace_go]; simp
    | cons x rest =>
      rw [py_replace_go]
      rw [if_neg (by simp)]
      by_cases hx : x = c
      · subst hx
        rw [if_pos (by simp [List.isPrefixOf])]
        simp only [List.length_singleton, List.drop_one, List.tail_cons, List.nil_append]
        rw [ih rest (by simp at hs; omega)]
        simp
      · rw [if_neg (by simp [List.isPrefixOf]; exact fun h => hx h.symm)]
        rw [ih rest (by simp at hs; omega)]
        simp [hx]

theorem py_replace_single_empty (c : Char) (s : List Char) :
    py_replace s [c] [] = s.filter (· ≠ c) :=
  py_replace_go_single_empty c (s.length + 1) s (by omega)

theorem clean_eq_filter (s : List Char) :
    clean_word_for_processing s = s.filter mark_free := by
  unfold clean_word_for_processing
  rw [py_replace_single_empty, py_replace_single_empty, py_replace_single_empty]
  rw [List.filter_filter, List.filter_filter]
  apply List.filter_congr
  intro a _
  simp only [mark_free]
  cases h1 : decide (a = '.') <;> cases h2 : decide (a = 'ˈ') <;> cases h3 : decide (a = 'ˌ') <;>
    simp [h1, h2, h3]

theorem filter_intercalate_dot (xs : List (List Char)) :
    (List.intercalate ['.'] xs).filter mark_free = (xs.map (·.filter mark_free)).flatten := by
  induction xs with
  | nil => rfl
  | cons x t ih =>
    cases t with
    | nil => simp [List.intercalate]
    | cons y t2 =>
      have hstep : List.intercalate ['.'] (x :: y :: t2) =
          x ++ ['.'] ++ List.intercalate ['.'] (y :: t2) := by
        simp [List.intercalate, List.intersperse]
      rw [hstep, List.filter_append, List.filter_append, ih]
      simp [mark_free]

theorem split_on_char_ne_nil (c : Char) (s : List Char) : split_on_char c s ≠ [] := by
  cases s with
  | nil => simp [split_on_char]
  | cons x rest =>
    rw [split_on_char]
    by_cases hx : x = c
    · simp [hx]
    · rw [if_neg hx]
      cases h : split_on_char c rest <;> simp

theorem filter_flatten_split_dot (s : List Char) :
    ((split_on_char '.' s).map (·.filter mark_free)).flatten = s.filter mark_free := by
  induction s with
  | nil => rfl
  | cons x rest ih =>
    rw [split_on_char]
    by_cases hx : x = '.'
    · subst hx
      rw [if_pos rfl]
      simp only [List.map_cons, List.flatten_cons, List.filter_nil, List.nil_append, ih]
      simp [mark_free]
    · rw [if_neg hx]
      cases h : split_on_char '.' rest with
      | nil => exact absurd h (split_on_char_ne_nil '.' rest)
      | cons hd tl =>
        rw [h] at ih
        simp only [List.map_cons, List.flatten_cons] at ih ⊢
        by_cases hm : mark_free x
        · rw [List.filter_cons_of_pos hm, List.filter_cons_of_pos hm]
          simp only [List.cons_append]
          exact congrArg (x :: ·) ih
        · rw [List.filter_cons_of_neg hm, List.filter_cons_of_neg hm]
          exact ih

theorem map_filter_modify_at (xs : List (List Char)) (i : Nat) (f : List Char → List Char)
    (hf : ∀ x, (f x).filter mark_free = x.filter mark_free) :
    (modify_at xs i f).map (·.filter mark_free) = xs.map (·.filter mark_free) := by
  induction xs generalizing i with
  | nil => rfl
  | cons x t ih =>
    cases i with
    | zero => simp [modify_at, hf]
    | succ n => simp [modify_at, ih]

theorem clean_apply_stress_pattern (s : List Char) (rules : SyllabificationRules) (choose : Nat) :
    clean_word_for_processing (apply_stress_pattern s rules choose) =
      clean_word_for_processing s := by
  unfold apply_stress_pattern
  dsimp only
  split
  · rfl
  · split
    · rfl
    · split
      · rfl
      · rw [clean_eq_filter, clean_eq_filter, filter_intercalate_dot]
        have hstress1 : ∀ (xs : List (List Char)) (j : Nat),
            (modify_at xs j (fun syl => 'ˈ' :: syl)).map (·.filter mark_free) =
              xs.map (·.filter mark_free) := by
          intro xs j
          apply map_filter_modify_at
          intro x
          simp [mark_free]
        have hstress2 : ∀ (xs : List (List Char)) (j : Nat),
            (modify_at xs j (fun syl => 'ˌ' :: syl)).map (·.filter mark_free) =
              xs.map (·.filter mark_free) := by
          intro xs j
          apply map_filter_modify_at
          intro x
          simp [mark_free]
        have hs2 : ∀ (xs : List (List Char)) (chosen : StressPattern),
            (((match chosen.secondary with
              | none => xs
              | some sec =>
                if 0 ≤ sec - 1 ∧ sec - 1 < (xs.length : Int) ∧ sec - 1 ≠ chosen.primary - 1 then
                  modify_at xs (sec - 1).toNat (fun syl => 'ˌ' :: syl)
                else xs : List (List Char))).map (fun x : List Char => x.filter mark_free)) =
              xs.map (fun x : List Char => x.filter mark_free) := by
          intro xs chosen
          cases chosen.secondary with
          | none => rfl
          | some sec =>
            dsimp only
            split
            · exact hstress2 xs _
            · rfl
        rw [hs2]
        split
        · rw [hstress1, filter_flatten_split_dot]
        · rw [filter_flatten_split_dot]

theorem slice_append_drop (w : List Char) (a i : Nat) (hai : a ≤ i) :
    py_slice w a i ++ w.drop i = w.drop a := by
  unfold py_slice
  rw [List.drop_take]
  have : w.drop i = List.drop (i - a) (w.drop a) := by
    rw [List.drop_drop]
    congr 1
    omega
  rw [this, List.take_append_drop]

theorem filter_insert_boundaries (ons cods : List (List Char)) (w : List Char) :
    ∀ (fuel i a : Nat), a ≤ i →
      (insert_boundaries_go w a (boundary_loop ons cods w fuel i)).filter mark_free =
        (w.drop a).filter mark_free := by
  intro fuel
  induction fuel with
  | zero =>
    intro i a ha
    rw [boundary_loop, insert_boundaries_go]
  | succ fuel ih =>
    intro i a ha
    rw [boundary_loop]
    by_cases h : i < w.length
    · rw [if_pos h]
      by_cases hv : valid_break ons cods w i
      · rw [if_pos hv, insert_boundaries_go]
        rw [List.filter_append]
        have hdot : ('.' :: insert_boundaries_go w i (boundary_loop ons cods w fuel (i + 1))).filter mark_free =
            (insert_boundaries_go w i (boundary_loop ons cods w fuel (i + 1))).filter mark_free := by
          rw [List.filter_cons_of_neg (by simp [mark_free])]
        rw [hdot, ih (i + 1) i (by omega)]
        rw [← List.filter_append, slice_append_drop w a i ha]
      · rw [if_neg hv]
        exact ih (i + 1) a (by omega)
    · rw [if_neg h]
      rw [insert_boundaries_go]

theorem clean_apply_syllabification (w : List Char) (rules : SyllabificationRules)
    (hw : ∀ c ∈ w, mark_free c) :
    clean_word_for_processing (apply_syllabification w rules) = w := by
  unfold apply_syllabification
  split
  · rw [clean_eq_filter]
    exact List.filter_eq_self.mpr hw
  · unfold find_syllable_boundaries
    split
    · rw [insert_boundaries_go, List.drop_zero, clean_eq_filter]
      exact List.filter_eq_self.mpr hw
    · rw [clean_eq_filter]
      rw [filter_insert_boundaries _ _ w w.length 1 0 (by omega)]
      rw [List.drop_zero]
      exact List.filter_eq_self.mpr hw

/-- C10: syllabification and stress assignment only insert marks.  For any
word containing no `.`, `ˈ` or `ˌ`, any syllabification rules, and any
outcome of the random stress-pattern draw (`choose` ranges over every
possible choice), stripping `.`, `ˈ` and `ˌ` from
`syllabify_word word rules choose` recovers the word exactly. -/
theorem C10_syllabify_round_trip (word : List Char) (rules : SyllabificationRules) (choose : Nat)
    (hdot : '.' ∉ word) (hpri : 'ˈ' ∉ word) (hsec : 'ˌ' ∉ word) :
    clean_word_for_processing (syllabify_word word rules choose) = word := by
  unfold syllabify_word
  rw [clean_apply_stress_pattern]
  apply clean_apply_syllabification
  intro c hc
  simp only [mark_free]
  have h1 : c ≠ '.' := fun h => hdot (h ▸ hc)
  have h2 : c ≠ 'ˈ' := fun h => hpri (h ▸ hc)
  have h3 : c ≠ 'ˌ' := fun h => hsec (h ▸ hc)
  simp [h1, h2, h3]

/-- C10 (witness): the round trip at the word `banana` with onsets `b`,
`n`, no codas, and stress patterns `1` and `2-1`, for two draws (which
produce the distinct outputs `ˈba.na.na` and `ˌba.ˈna.na`). -/
theorem C10_syllabify_round_trip_witness :
    clean_word_for_processing
        (syllabify_word ("banana".toList)
          ⟨[['b'], ['n']], [], [⟨1, none⟩, ⟨2, some 1⟩]⟩ 0) = "banana".toList ∧
    clean_word_for_processing
        (syllabify_word ("banana".toList)
          ⟨[['b'], ['n']], [], [⟨1, none⟩, ⟨2, some 1⟩]⟩ 1) = "banana".toList :=
  ⟨C10_syllabify_round_trip ("banana".toList) ⟨[['b'], ['n']], [], [⟨1, none⟩, ⟨2, some 1⟩]⟩ 0
      (by decide) (by decide) (by decide),
   C10_syllabify_round_trip ("banana".toList) ⟨[['b'], ['n']], [], [⟨1, none⟩, ⟨2, some 1⟩]⟩ 1
      (by decide) (by decide) (by decide)⟩
